import Mathlib

/-
Verification development for the cumulative-histogram program of
src/2.1/A/main.cpp: a three-stage pipeline (map, reduce, inclusive
prefix scan) over CANTIDAD_RANGOS = 4 buckets, executed once with
straight-line loops (ejecutarSecuencial) and once through TBB's
data-parallel algorithms (ejecutarParalelo).

The C++ is embedded shallowly: C++ `int` becomes `Int`; truncating
C++ integer division becomes `Int.tdiv`; `std::array<int, 4>` becomes
the four-field structure `ArregloRangos`; the TBB scheduler's freedom
is made explicit as a binary splitting tree (`ArbolRango`) for
parallel_for / parallel_reduce and an in-order chunk list for the
final passes of parallel_scan.
-/

namespace Practica

/-- The constant `CANTIDAD_RANGOS = 4` of main.cpp (number of buckets B). -/
def CANTIDAD_RANGOS : Int := 4

/-- Embedding of `std::array<int, CANTIDAD_RANGOS>` (CANTIDAD_RANGOS = 4):
four integer cells. -/
structure ArregloRangos where
  c0 : Int
  c1 : Int
  c2 : Int
  c3 : Int
deriving DecidableEq, Repr

/-- Reading `a[i]` for a `Nat` index; indices ≥ 4 never occur in the
embedded code paths (they would be undefined behaviour in C++) and are
given the junk value 0. -/
def ArregloRangos.get (a : ArregloRangos) : Nat → Int
  | 0 => a.c0
  | 1 => a.c1
  | 2 => a.c2
  | 3 => a.c3
  | _ => 0

/-- Writing `a[i] = v` for a `Nat` index; an index ≥ 4 (undefined
behaviour in C++) is modelled as a no-op. -/
def ArregloRangos.set (a : ArregloRangos) : Nat → Int → ArregloRangos
  | 0, v => ⟨v, a.c1, a.c2, a.c3⟩
  | 1, v => ⟨a.c0, v, a.c2, a.c3⟩
  | 2, v => ⟨a.c0, a.c1, v, a.c3⟩
  | 3, v => ⟨a.c0, a.c1, a.c2, v⟩
  | _, _ => a

/-- The value-initialised array `std::array<int, CANTIDAD_RANGOS>{}`. -/
def ArregloRangos.cero : ArregloRangos := ⟨0, 0, 0, 0⟩

/-- Element-wise addition: the inner loop `for j: x[j] += y[j]` of the
reduction body, and also the TBB combine lambda of parallel_reduce. -/
def ArregloRangos.add (a b : ArregloRangos) : ArregloRangos :=
  ⟨a.c0 + b.c0, a.c1 + b.c1, a.c2 + b.c2, a.c3 + b.c3⟩

/-- Total of the four cells (used to state the sum-preservation claims). -/
def ArregloRangos.suma (a : ArregloRangos) : Int :=
  a.c0 + a.c1 + a.c2 + a.c3

/-- `calcularIndiceRango` (main.cpp lines 55-59): truncating C++ `int`
division (`Int.tdiv`) of the adjusted value, clamped from above to
CANTIDAD_RANGOS - 1 with `std::min`. -/
def calcularIndiceRango (valor tamanoRango : Int) : Int :=
  let valorAjustado := if valor > 0 then valor - 1 else valor
  min (valorAjustado.tdiv tamanoRango) (CANTIDAD_RANGOS - 1)

/-- The map body `temp{}; temp[indice] = 1` applied to a bucket index of
C++ type `int`. An index outside [0, 4) is out-of-bounds (undefined
behaviour) in C++ and is modelled as writing nothing. -/
def vectorUnitario (indice : Int) : ArregloRangos :=
  if indice = 0 then ⟨1, 0, 0, 0⟩
  else if indice = 1 then ⟨0, 1, 0, 0⟩
  else if indice = 2 then ⟨0, 0, 1, 0⟩
  else if indice = 3 then ⟨0, 0, 0, 1⟩
  else ArregloRangos.cero

/-- Bucket lower bound printed by `mostrarConfiguracion` (main.cpp line 240):
`(i == 0) ? 0 : (valorMaximo - (CANTIDAD_RANGOS - i) * tamanoRango + 1)`. -/
def limiteInferior (valorMaximo tamanoRango i : Int) : Int :=
  if i = 0 then 0 else valorMaximo - (CANTIDAD_RANGOS - i) * tamanoRango + 1

/-- Bucket upper bound printed by `mostrarConfiguracion` (main.cpp line 241):
`valorMaximo - (CANTIDAD_RANGOS - 1 - i) * tamanoRango`. -/
def limiteSuperior (valorMaximo tamanoRango i : Int) : Int :=
  valorMaximo - (CANTIDAD_RANGOS - 1 - i) * tamanoRango

/-- Step 1 of `ejecutarSecuencial` (lines 70-78): one one-hot array per
input element, produced in index order. -/
def mapearSecuencial (datos : List Int) (tamanoRango : Int) : List ArregloRangos :=
  datos.map (fun d => vectorUnitario (calcularIndiceRango d tamanoRango))

/-- Step 2 of `ejecutarSecuencial` (lines 91-99): fold the mapped arrays
into `histograma{}` with the element-wise `+=` loop. -/
def reducirSecuencial (valoresMapeados : List ArregloRangos) : ArregloRangos :=
  valoresMapeados.foldl ArregloRangos.add ArregloRangos.cero

/-- Step 3 of `ejecutarSecuencial` (lines 107-115): `acumulador = 0;
for i in [0,4): acumulador += histograma[i]; histogramaAcumulado[i] = acumulador`. -/
def escanearSecuencial (histograma : ArregloRangos) : ArregloRangos :=
  ((List.range 4).foldl
    (fun p i =>
      let s := p.1 + histograma.get i
      (s, p.2.set i s))
    ((0 : Int), ArregloRangos.cero)).2

/-- `ejecutarSecuencial` (lines 65-124), restricted to its computation
(the printing is I/O glue): the cumulative histogram it builds. -/
def ejecutarSecuencial (datos : List Int) (tamanoRango : Int) : ArregloRangos :=
  escanearSecuencial (reducirSecuencial (mapearSecuencial datos tamanoRango))

/-- A recursive range split as performed by the TBB scheduler on a
`blocked_range`: a leaf subrange [lo, hi) executed by one body call,
or a split into two halves; `intercambio` records which half a stealing
worker happens to execute first (only relevant where bodies write). -/
inductive ArbolRango where
  | hoja (lo hi : Nat)
  | division (intercambio : Bool) (izq der : ArbolRango)

/-- The splitting tree covers exactly the contiguous range [lo, hi). -/
inductive Cubre : ArbolRango → Nat → Nat → Prop where
  | hoja {lo hi : Nat} : lo ≤ hi → Cubre (ArbolRango.hoja lo hi) lo hi
  | division {b : Bool} {izq der : ArbolRango} {lo mid hi : Nat} :
      Cubre izq lo mid → Cubre der mid hi → Cubre (ArbolRango.division b izq der) lo hi

/-- Store update for the shared vector `valoresMapeados`, modelled as a
function from index to array. -/
def escribirVM (vm : Nat → ArregloRangos) (i : Nat) (v : ArregloRangos) :
    Nat → ArregloRangos :=
  fun j => if j = i then v else vm j

/-- Body of the `tbb::parallel_for` of step 1 (lines 139-148) on the
subrange [lo, lo+n): `valoresMapeados[i] = temp` where temp is the
one-hot array of `calcularIndiceRango(datos[i], tamanoRango)`. -/
def cuerpoMapeo (datos : List Int) (tamanoRango : Int) :
    Nat → Nat → (Nat → ArregloRangos) → (Nat → ArregloRangos)
  | _, 0, vm => vm
  | lo, n + 1, vm =>
      cuerpoMapeo datos tamanoRango (lo + 1) n
        (escribirVM vm lo (vectorUnitario (calcularIndiceRango (datos.getD lo 0) tamanoRango)))

/-- Execution of the parallel map over a splitting tree: leaves run the
body; at a split the two halves run in either order (their writes are to
disjoint indices). -/
def mapeoParalelo (datos : List Int) (tamanoRango : Int) :
    ArbolRango → (Nat → ArregloRangos) → (Nat → ArregloRangos)
  | ArbolRango.hoja lo hi, vm => cuerpoMapeo datos tamanoRango lo (hi - lo) vm
  | ArbolRango.division true izq der, vm =>
      mapeoParalelo datos tamanoRango izq (mapeoParalelo datos tamanoRango der vm)
  | ArbolRango.division false izq der, vm =>
      mapeoParalelo datos tamanoRango der (mapeoParalelo datos tamanoRango izq vm)

/-- Reduction body of the `tbb::parallel_reduce` of step 2 (lines 167-177)
on [lo, lo+n): `for i: for j: parcial[j] += valoresMapeados[i][j]`. -/
def cuerpoReduccion (vm : Nat → ArregloRangos) : Nat → Nat → ArregloRangos → ArregloRangos
  | _, 0, parcial => parcial
  | lo, n + 1, parcial => cuerpoReduccion vm (lo + 1) n (parcial.add (vm lo))

/-- Combine lambda of the `tbb::parallel_reduce` (lines 180-188):
`combinado[i] = a[i] + b[i]`. -/
def combinarReduccion (a b : ArregloRangos) : ArregloRangos := a.add b

/-- Evaluation of the parallel reduce over a splitting tree: each leaf
folds its subrange starting from the identity `std::array{}`; each split
joins left and right partial results with the combine lambda (TBB always
joins left-to-right, whatever the execution order was). -/
def reduccionParalela (vm : Nat → ArregloRangos) : ArbolRango → ArregloRangos
  | ArbolRango.hoja lo hi => cuerpoReduccion vm lo (hi - lo) ArregloRangos.cero
  | ArbolRango.division _ izq der =>
      combinarReduccion (reduccionParalela vm izq) (reduccionParalela vm der)

/-- Scan body of the `tbb::parallel_scan` of step 3 (lines 203-214) on
[lo, lo+n): `suma += histograma[i]; if (esFinal) histogramaAcumulado[i] = suma`,
returning the updated running sum together with the output array. -/
def cuerpoEscaneo (histograma : ArregloRangos) :
    Nat → Nat → Int → Bool → ArregloRangos → Int × ArregloRangos
  | _, 0, suma, _, acc => (suma, acc)
  | lo, n + 1, suma, esFinal, acc =>
      let s := suma + histograma.get lo
      cuerpoEscaneo histograma (lo + 1) n s esFinal (if esFinal then acc.set lo s else acc)

/-- The final passes of `tbb::parallel_scan` over a partition of [0, 4)
into chunks, executed in index order as TBB guarantees: each chunk runs
the body with `esFinal = true`, seeded with the running sum returned so
far.  (The body's return value does not depend on `esFinal`, so threading
the final-pass returns coincides with TBB's pre-pass seeding.) -/
def escaneoParalelo (histograma : ArregloRangos) :
    List (Nat × Nat) → Int → ArregloRangos → Int × ArregloRangos
  | [], suma, acc => (suma, acc)
  | (lo, hi) :: resto, suma, acc =>
      let p := cuerpoEscaneo histograma lo (hi - lo) suma true acc
      escaneoParalelo histograma resto p.1 p.2

/-- The chunk list is an in-order partition of [lo, 4) into contiguous
(possibly empty) subranges. -/
inductive TrozosDesde : Nat → List (Nat × Nat) → Prop where
  | nil : TrozosDesde 4 []
  | cons {lo mid : Nat} {resto : List (Nat × Nat)} :
      lo ≤ mid → TrozosDesde mid resto → TrozosDesde lo ((lo, mid) :: resto)

/-- `ejecutarParalelo` (lines 130-225), restricted to its computation,
parameterised by the scheduler's choices: a splitting tree for the
parallel_for, one for the parallel_reduce, and a chunk partition for the
parallel_scan.  `valoresMapeados` starts value-initialised (all zero),
as does `histogramaAcumulado`. -/
def ejecutarParalelo (datos : List Int) (tamanoRango : Int)
    (tMapa tRed : ArbolRango) (trozos : List (Nat × Nat)) : ArregloRangos :=
  let vm := mapeoParalelo datos tamanoRango tMapa (fun _ => ArregloRangos.cero)
  let histograma := reduccionParalela vm tRed
  (escaneoParalelo histograma trozos 0 ArregloRangos.cero).2

/-- Scenario S4 of the spec: boundary values with W = 30. -/
example : ejecutarSecuencial [1, 30, 31, 60, 61, 90, 91, 120] 30 = ⟨2, 4, 6, 8⟩ := by
  decide

/-- The input of scenario S6 of the spec, run in parallel with a
three-way split; both backends compute ⟨3, 5, 7, 10⟩ on it. -/
example :
    ejecutarParalelo [10, 40, 70, 100, 120, 0, 30, 60, 90, 115] 30
      (ArbolRango.division true (ArbolRango.hoja 0 4)
        (ArbolRango.division false (ArbolRango.hoja 4 7) (ArbolRango.hoja 7 10)))
      (ArbolRango.division false (ArbolRango.hoja 0 5) (ArbolRango.hoja 5 10))
      [(0, 1), (1, 3), (3, 4)] =
    ejecutarSecuencial [10, 40, 70, 100, 120, 0, 30, 60, 90, 115] 30 := by
  decide

/-- The spec's three-step classification rule (§4.1), written from the
spec's own words for the refinement claim C2: x' is x - 1 for positive x
and 0 otherwise; b = ⌊x' / W⌋ with the mathematical floor division
`Int.fdiv`; the result is min(b, B - 1). -/
def reglaEspecificacion (x tamanoRango : Int) : Int :=
  min ((if x > 0 then x - 1 else 0).fdiv tamanoRango) (CANTIDAD_RANGOS - 1)

/-- Truncating division recovers the exact multiple. -/
theorem tdiv_multiplo (k W : Int) (hW : 1 ≤ W) : (k * W).tdiv W = k :=
  Int.mul_tdiv_cancel k (by omega)

/-- Truncating division of the top value of the k-th width-W block. -/
theorem tdiv_tope (k W : Int) (hW : 1 ≤ W) (hk : 0 ≤ k) :
    ((k + 1) * W - 1).tdiv W = k := by
  have hnum : (k + 1) * W - 1 = W - 1 + k * W := by ring
  rw [hnum, Int.tdiv_eq_ediv (by nlinarith) (by omega),
    Int.add_mul_ediv_right _ _ (by omega : W ≠ 0),
    Int.ediv_eq_zero_of_lt (by omega) (by omega)]
  ring

/-- Claim C2: for every value x in [0, V] and bucket width W ≥ 1, the
classifier of the code computes exactly the spec's three-step rule
min(⌊x' / W⌋, B − 1) with x' = x − 1 for x > 0 and x' = 0 otherwise. -/
theorem calcularIndiceRango_es_regla (V x W : Int) (hW : 1 ≤ W) (hx : 0 ≤ x)
    (hxV : x ≤ V) : calcularIndiceRango x W = reglaEspecificacion x W := by
  unfold calcularIndiceRango reglaEspecificacion
  by_cases hpos : x > 0
  · simp only [if_pos hpos]
    rw [Int.tdiv_eq_ediv (by omega) (by omega), Int.fdiv_eq_ediv _ (by omega)]
  · have hx0 : x = 0 := by omega
    subst hx0
    norm_num

/-- Witness for C2 at the boundary value 31 of scenario S4. -/
theorem calcularIndiceRango_es_regla_testigo :
    calcularIndiceRango 31 30 = reglaEspecificacion 31 30 :=
  calcularIndiceRango_es_regla 120 31 30 (by norm_num) (by norm_num) (by norm_num)

/-- Claim C4 (counterexample): with width W = 30 ≥ 1, the classifier sends
the negative value -30 to -1 (C++ division truncates toward zero and the
code only clamps from above), which is not a valid bucket index. -/
theorem calcularIndiceRango_negativo_contraejemplo :
    (1 : Int) ≤ 30 ∧ calcularIndiceRango (-30) 30 = -1 ∧
      ¬ (0 ≤ calcularIndiceRango (-30) 30 ∧
          calcularIndiceRango (-30) 30 < CANTIDAD_RANGOS) := by
  decide

/-- Helper: the classifier lands in [0, B) for every x > -W. -/
theorem indice_valido (x W : Int) (hW : 1 ≤ W) (hx : -W < x) :
    0 ≤ calcularIndiceRango x W ∧ calcularIndiceRango x W < CANTIDAD_RANGOS := by
  unfold calcularIndiceRango CANTIDAD_RANGOS
  by_cases hpos : x > 0
  · simp only [if_pos hpos]
    have h1 : (0 : Int) ≤ (x - 1).tdiv 30 ⊔ (4 - 1) := by
      exact le_trans (by norm_num) (le_max_right _ _)
    constructor
    · exact le_min (Int.tdiv_nonneg (by omega) (by omega)) (by norm_num)
    · have h2 := min_le_right ((x - 1).tdiv W) ((4 : Int) - 1)
      omega
  · simp only [if_neg hpos]
    have h0 : x.tdiv W = 0 := by
      rcases lt_or_ge x 0 with hneg | hge
      · have hpos' : (-x).tdiv W = 0 := Int.tdiv_eq_zero_of_lt (by omega) (by omega)
        have h2 : x.tdiv W = -((-x).tdiv W) := by rw [Int.neg_tdiv, neg_neg]
        omega
      · have hx0 : x = 0 := by omega
        subst hx0
        exact Int.zero_tdiv W
    rw [h0]
    norm_num

/-- Claim C4 (amended): for every width W ≥ 1 and every integer x > -W —
in particular every x ≥ 0, which covers all expected inputs — the clamp
guarantees 0 ≤ b < B; values x ≤ -W escape below the valid range. -/
theorem calcularIndiceRango_en_rango (x W : Int) (hW : 1 ≤ W) (hx : -W < x) :
    0 ≤ calcularIndiceRango x W ∧ calcularIndiceRango x W < CANTIDAD_RANGOS :=
  indice_valido x W hW hx

/-- Witness for the amended C4 at the extreme expected value x = 120. -/
theorem calcularIndiceRango_en_rango_testigo :
    0 ≤ calcularIndiceRango 120 30 ∧ calcularIndiceRango 120 30 < CANTIDAD_RANGOS :=
  calcularIndiceRango_en_rango 120 30 (by norm_num) (by norm_num)

/-- Claim C5 (counterexample): with V = 5 and B = 4 the width is
W = ⌈5/4⌉ = 2; the displayed upper bound of bucket 1 is the value 1,
which the classifier sends to bucket 0, and the maximum value V itself
lands in bucket 2 rather than B − 1 = 3. -/
theorem limites_contraejemplo :
    ⌈(5 : ℚ) / 4⌉ = 2 ∧ limiteSuperior 5 2 1 = 1 ∧
      calcularIndiceRango (limiteSuperior 5 2 1) 2 = 0 ∧
      calcularIndiceRango 5 2 ≠ CANTIDAD_RANGOS - 1 := by
  refine ⟨?_, by decide, by decide, by decide⟩
  rw [Int.ceil_eq_iff]
  norm_num

/-- Claim C5 (amended): under B = 4, W ≥ 1 and the extra hypothesis that
B divides V exactly (V = B·W, as in the reference configuration
120 = 4·30 — needed because the displayed bounds drift from the
classifier when B ∤ V), both displayed bounds of every bucket i classify
to i, the value 0 classifies to 0, and V classifies to B − 1. -/
theorem limites_clasifican (V W i : Int) (hW : 1 ≤ W) (hV : V = 4 * W)
    (hi0 : 0 ≤ i) (hi3 : i < 4) :
    calcularIndiceRango (limiteInferior V W i) W = i ∧
      calcularIndiceRango (limiteSuperior V W i) W = i ∧
      calcularIndiceRango 0 W = 0 ∧
      calcularIndiceRango V W = CANTIDAD_RANGOS - 1 := by
  have hcero : calcularIndiceRango 0 W = 0 := by
    unfold calcularIndiceRango CANTIDAD_RANGOS
    norm_num [Int.zero_tdiv]
  have hsup : ∀ j : Int, 0 ≤ j → j < 4 →
      calcularIndiceRango ((j + 1) * W) W = j := by
    intro j hj0 hj3
    unfold calcularIndiceRango CANTIDAD_RANGOS
    rw [if_pos (by nlinarith)]
    show min (((j + 1) * W - 1).tdiv W) (4 - 1) = j
    rw [tdiv_tope j W hW hj0]
    exact min_eq_left (by omega)
  have hsup' : limiteSuperior V W i = (i + 1) * W := by
    unfold limiteSuperior CANTIDAD_RANGOS
    rw [hV]
    ring
  refine ⟨?_, ?_, hcero, ?_⟩
  · rcases eq_or_lt_of_le hi0 with hi | hi
    · have h0 : limiteInferior V W i = 0 := by
        unfold limiteInferior
        rw [if_pos hi.symm]
      rw [h0, hcero, ← hi]
    · have hinf : limiteInferior V W i = i * W + 1 := by
        unfold limiteInferior CANTIDAD_RANGOS
        rw [if_neg (by omega), hV]
        ring
      rw [hinf]
      unfold calcularIndiceRango CANTIDAD_RANGOS
      rw [if_pos (by nlinarith)]
      show min ((i * W + 1 - 1).tdiv W) (4 - 1) = i
      rw [show i * W + 1 - 1 = i * W by ring, tdiv_multiplo i W hW]
      exact min_eq_left (by omega)
  · rw [hsup']
    exact hsup i hi0 hi3
  · have hV' : V = (3 + 1) * W := by omega
    rw [hV']
    have := hsup 3 (by norm_num) (by norm_num)
    rw [this]
    decide

/-- Witness for the amended C5 at the reference configuration
V = 120, W = 30, bucket i = 2. -/
theorem limites_clasifican_testigo :
    calcularIndiceRango (limiteInferior 120 30 2) 30 = 2 ∧
      calcularIndiceRango (limiteSuperior 120 30 2) 30 = 2 ∧
      calcularIndiceRango 0 30 = 0 ∧
      calcularIndiceRango 120 30 = CANTIDAD_RANGOS - 1 :=
  limites_clasifican 120 30 2 (by norm_num) (by norm_num) (by norm_num) (by norm_num)

/-- Element-wise addition is associative. -/
theorem ArregloRangos.add_asoc (a b c : ArregloRangos) :
    (a.add b).add c = a.add (b.add c) := by
  cases a; cases b; cases c
  simp [ArregloRangos.add, Int.add_assoc]

/-- Element-wise addition is commutative. -/
theorem ArregloRangos.add_conm (a b : ArregloRangos) : a.add b = b.add a := by
  cases a; cases b
  simp [ArregloRangos.add, Int.add_comm]

/-- The zero array is a right identity. -/
theorem ArregloRangos.add_cero (a : ArregloRangos) : a.add ArregloRangos.cero = a := by
  cases a
  simp [ArregloRangos.add, ArregloRangos.cero]

/-- The zero array is a left identity. -/
theorem ArregloRangos.cero_add (a : ArregloRangos) : ArregloRangos.cero.add a = a := by
  cases a
  simp [ArregloRangos.add, ArregloRangos.cero]

/-- Reading a cell written by `set` (both indices in bounds). -/
theorem ArregloRangos.get_set (a : ArregloRangos) (i j : Nat) (v : Int)
    (hi : i < 4) (hj : j < 4) :
    (a.set i v).get j = if j = i then v else a.get j := by
  interval_cases i <;> interval_cases j <;>
    simp [ArregloRangos.set, ArregloRangos.get]

/-- Two arrays agreeing on the four valid cells are equal. -/
theorem ArregloRangos.ext_get {a b : ArregloRangos}
    (h : ∀ j, j < 4 → a.get j = b.get j) : a = b := by
  cases a; cases b
  have h0 := h 0 (by norm_num)
  have h1 := h 1 (by norm_num)
  have h2 := h 2 (by norm_num)
  have h3 := h 3 (by norm_num)
  simp [ArregloRangos.get] at h0 h1 h2 h3
  simp [h0, h1, h2, h3]

/-- The array the map stage stores at index i (same expression in both
backends, lines 74-77 and 143-146). -/
def valorMapeado (datos : List Int) (tamanoRango : Int) (i : Nat) : ArregloRangos :=
  vectorUnitario (calcularIndiceRango (datos.getD i 0) tamanoRango)

/-- The map body writes exactly its subrange, each slot getting the
one-hot array of its element. -/
theorem cuerpoMapeo_eval (datos : List Int) (W : Int) :
    ∀ (n lo : Nat) (vm : Nat → ArregloRangos) (j : Nat),
      cuerpoMapeo datos W lo n vm j =
        if lo ≤ j ∧ j < lo + n then valorMapeado datos W j else vm j := by
  intro n
  induction n with
  | zero =>
      intro lo vm j
      rw [if_neg (by omega)]
      rfl
  | succ n ih =>
      intro lo vm j
      show cuerpoMapeo datos W (lo + 1) n _ j = _
      rw [ih (lo + 1)]
      by_cases h1 : (lo + 1) ≤ j ∧ j < (lo + 1) + n
      · rw [if_pos h1, if_pos (by omega)]
      · rw [if_neg h1]
        unfold escribirVM
        by_cases h2 : j = lo
        · subst h2
          rw [if_pos rfl, if_pos (by omega)]
          rfl
        · rw [if_neg h2, if_neg (by omega)]

/-- A covering tree spans a non-empty-to-ordered range. -/
theorem Cubre.cota {t : ArbolRango} {lo hi : Nat} (h : Cubre t lo hi) : lo ≤ hi := by
  induction h with
  | hoja h => exact h
  | division h1 h2 ih1 ih2 => omega

/-- Whatever split tree and execution order the scheduler picks, the
parallel map leaves every slot of its range holding the one-hot array of
its element and every other slot untouched. -/
theorem mapeoParalelo_eval (datos : List Int) (W : Int) :
    ∀ {t : ArbolRango} {lo hi : Nat}, Cubre t lo hi →
      ∀ (vm : Nat → ArregloRangos) (j : Nat),
        mapeoParalelo datos W t vm j =
          if lo ≤ j ∧ j < hi then valorMapeado datos W j else vm j := by
  intro t lo hi hc
  induction hc with
  | @hoja lo hi h =>
      intro vm j
      show cuerpoMapeo datos W lo (hi - lo) vm j = _
      rw [cuerpoMapeo_eval]
      by_cases h1 : lo ≤ j ∧ j < hi
      · rw [if_pos (by omega), if_pos h1]
      · rw [if_neg (by omega), if_neg h1]
  | @division b izq der lo mid hi hiz hder ihz ihd =>
      intro vm j
      have hlm : lo ≤ mid := hiz.cota
      have hmh : mid ≤ hi := hder.cota
      cases b
      · show mapeoParalelo datos W der (mapeoParalelo datos W izq vm) j = _
        rw [ihd, ihz]
        by_cases h1 : mid ≤ j ∧ j < hi
        · rw [if_pos h1, if_pos (by omega)]
        · rw [if_neg h1]
          by_cases h2 : lo ≤ j ∧ j < mid
          · rw [if_pos h2, if_pos (by omega)]
          · rw [if_neg h2, if_neg (by omega)]
      · show mapeoParalelo datos W izq (mapeoParalelo datos W der vm) j = _
        rw [ihz, ihd]
        by_cases h1 : lo ≤ j ∧ j < mid
        · rw [if_pos h1, if_pos (by omega)]
        · rw [if_neg h1]
          by_cases h2 : mid ≤ j ∧ j < hi
          · rw [if_pos h2, if_pos (by omega)]
          · rw [if_neg h2, if_neg (by omega)]

/-- Element-wise sum of the stored arrays over the index range [lo, lo + n). -/
def sumaRango (vm : Nat → ArregloRangos) : Nat → Nat → ArregloRangos
  | _, 0 => ArregloRangos.cero
  | lo, n + 1 => (vm lo).add (sumaRango vm (lo + 1) n)

/-- The reduce body folds its subrange on top of the incoming partial. -/
theorem cuerpoReduccion_eval (vm : Nat → ArregloRangos) :
    ∀ (n lo : Nat) (parcial : ArregloRangos),
      cuerpoReduccion vm lo n parcial = parcial.add (sumaRango vm lo n) := by
  intro n
  induction n with
  | zero =>
      intro lo p
      show p = p.add (sumaRango vm lo 0)
      rw [show sumaRango vm lo 0 = ArregloRangos.cero from rfl, ArregloRangos.add_cero]
  | succ n ih =>
      intro lo p
      show cuerpoReduccion vm (lo + 1) n (p.add (vm lo)) = _
      rw [ih (lo + 1), ArregloRangos.add_asoc]
      rfl

/-- Splitting the summation range. -/
theorem sumaRango_division (vm : Nat → ArregloRangos) :
    ∀ (a b lo : Nat),
      sumaRango vm lo (a + b) = (sumaRango vm lo a).add (sumaRango vm (lo + a) b) := by
  intro a
  induction a with
  | zero =>
      intro b lo
      rw [Nat.zero_add, Nat.add_zero,
        show sumaRango vm lo 0 = ArregloRangos.cero from rfl, ArregloRangos.cero_add]
  | succ a ih =>
      intro b lo
      rw [show a + 1 + b = (a + b) + 1 from by omega]
      show (vm lo).add (sumaRango vm (lo + 1) (a + b)) = _
      rw [ih b (lo + 1),
        show sumaRango vm lo (a + 1) = (vm lo).add (sumaRango vm (lo + 1) a) from rfl,
        ArregloRangos.add_asoc,
        show lo + 1 + a = lo + (a + 1) from by omega]

/-- The range sum only reads the slots of its range. -/
theorem sumaRango_congr :
    ∀ (n lo : Nat) (vm vm' : Nat → ArregloRangos),
      (∀ j, lo ≤ j → j < lo + n → vm j = vm' j) →
      sumaRango vm lo n = sumaRango vm' lo n := by
  intro n
  induction n with
  | zero => intro lo vm vm' _; rfl
  | succ n ih =>
      intro lo vm vm' h
      show (vm lo).add (sumaRango vm (lo + 1) n) = (vm' lo).add (sumaRango vm' (lo + 1) n)
      rw [h lo (le_refl lo) (by omega), ih (lo + 1) vm vm' (fun j h1 h2 => h j (by omega) (by omega))]

/-- Whatever split tree the scheduler picks, the parallel reduce computes
the element-wise sum of the stored arrays over its range. -/
theorem reduccionParalela_eval (vm : Nat → ArregloRangos) :
    ∀ {t : ArbolRango} {lo hi : Nat}, Cubre t lo hi →
      reduccionParalela vm t = sumaRango vm lo (hi - lo) := by
  intro t lo hi hc
  induction hc with
  | @hoja lo hi h =>
      show cuerpoReduccion vm lo (hi - lo) ArregloRangos.cero = _
      rw [cuerpoReduccion_eval, ArregloRangos.cero_add]
  | @division b izq der lo mid hi hiz hder ihz ihd =>
      show combinarReduccion (reduccionParalela vm izq) (reduccionParalela vm der) = _
      have hlm : lo ≤ mid := hiz.cota
      have hmh : mid ≤ hi := hder.cota
      unfold combinarReduccion
      rw [ihz, ihd, show hi - lo = (mid - lo) + (hi - mid) from by omega,
        sumaRango_division, show lo + (mid - lo) = mid from by omega]

/-- Folding with element-wise addition from an arbitrary start equals the
start plus the fold from zero. -/
theorem foldl_add_desde :
    ∀ (l : List ArregloRangos) (p : ArregloRangos),
      l.foldl ArregloRangos.add p =
        p.add (l.foldl ArregloRangos.add ArregloRangos.cero) := by
  intro l
  induction l with
  | nil => intro p; rw [List.foldl_nil, List.foldl_nil, ArregloRangos.add_cero]
  | cons x t ih =>
      intro p
      rw [List.foldl_cons, List.foldl_cons, ih (p.add x),
        ih (ArregloRangos.cero.add x), ArregloRangos.cero_add, ArregloRangos.add_asoc]

/-- The sequential reduce over the mapped list equals the range sum of any
store that holds the mapped arrays at the right offsets. -/
theorem sumaRango_lista (W : Int) :
    ∀ (l : List Int) (lo : Nat) (vm : Nat → ArregloRangos),
      (∀ k, k < l.length → vm (lo + k) = vectorUnitario (calcularIndiceRango (l.getD k 0) W)) →
      sumaRango vm lo l.length = reducirSecuencial (mapearSecuencial l W) := by
  intro l
  induction l with
  | nil => intro lo vm _; rfl
  | cons x t ih =>
      intro lo vm h
      show (vm lo).add (sumaRango vm (lo + 1) t.length) = _
      have hx : vm lo = vectorUnitario (calcularIndiceRango x W) := by
        have := h 0 (by simp)
        simpa using this
      have ht : sumaRango vm (lo + 1) t.length = reducirSecuencial (mapearSecuencial t W) := by
        apply ih (lo + 1) vm
        intro k hk
        have := h (k + 1) (by simpa using Nat.succ_lt_succ hk)
        rw [show lo + 1 + k = lo + (k + 1) from by omega]
        simpa using this
      rw [hx, ht]
      show _ = (mapearSecuencial (x :: t) W).foldl ArregloRangos.add ArregloRangos.cero
      rw [show mapearSecuencial (x :: t) W =
          vectorUnitario (calcularIndiceRango x W) :: mapearSecuencial t W from rfl,
        List.foldl_cons, foldl_add_desde, ArregloRangos.cero_add]
      rfl

/-- Sum of the histogram cells over [lo, lo + n). -/
def sumaCeldas (h : ArregloRangos) : Nat → Nat → Int
  | _, 0 => 0
  | lo, n + 1 => h.get lo + sumaCeldas h (lo + 1) n

/-- Inclusive prefix sum of the first n cells. -/
def sumaPrefijo (h : ArregloRangos) (n : Nat) : Int := sumaCeldas h 0 n

/-- Splitting the cell summation range. -/
theorem sumaCeldas_division (h : ArregloRangos) :
    ∀ (a b lo : Nat), sumaCeldas h lo (a + b) = sumaCeldas h lo a + sumaCeldas h (lo + a) b := by
  intro a
  induction a with
  | zero =>
      intro b lo
      rw [Nat.zero_add, Nat.add_zero, show sumaCeldas h lo 0 = 0 from rfl, zero_add]
  | succ a ih =>
      intro b lo
      rw [show a + 1 + b = (a + b) + 1 from by omega]
      show h.get lo + sumaCeldas h (lo + 1) (a + b) = _
      rw [ih b (lo + 1), show sumaCeldas h lo (a + 1) = h.get lo + sumaCeldas h (lo + 1) a from rfl,
        show lo + 1 + a = lo + (a + 1) from by omega]
      ring

/-- The scan body returns its seed plus the cell sum of its range,
whatever the value of `esFinal`. -/
theorem cuerpoEscaneo_retorno (h : ArregloRangos) :
    ∀ (n lo : Nat) (s : Int) (esFinal : Bool) (acc : ArregloRangos),
      (cuerpoEscaneo h lo n s esFinal acc).1 = s + sumaCeldas h lo n := by
  intro n
  induction n with
  | zero => intro lo s esFinal acc; show s = s + 0; ring
  | succ n ih =>
      intro lo s esFinal acc
      show (cuerpoEscaneo h (lo + 1) n (s + h.get lo) esFinal _).1 = _
      rw [ih, show sumaCeldas h lo (n + 1) = h.get lo + sumaCeldas h (lo + 1) n from rfl]
      ring

/-- A non-final pass writes nothing. -/
theorem cuerpoEscaneo_no_final (h : ArregloRangos) :
    ∀ (n lo : Nat) (s : Int) (acc : ArregloRangos),
      (cuerpoEscaneo h lo n s false acc).2 = acc := by
  intro n
  induction n with
  | zero => intro lo s acc; rfl
  | succ n ih => intro lo s acc; exact ih (lo + 1) (s + h.get lo) acc

/-- A final pass writes exactly its range: slot j gets the seed plus the
cell sum over [lo, j], every other slot is untouched. -/
theorem cuerpoEscaneo_final (h : ArregloRangos) :
    ∀ (n lo : Nat), lo + n ≤ 4 →
      ∀ (s : Int) (acc : ArregloRangos) (j : Nat), j < 4 →
        ((cuerpoEscaneo h lo n s true acc).2).get j =
          if lo ≤ j ∧ j < lo + n then s + sumaCeldas h lo (j - lo + 1) else acc.get j := by
  intro n
  induction n with
  | zero =>
      intro lo _ s acc j hj
      rw [if_neg (by omega)]
      rfl
  | succ n ih =>
      intro lo hn s acc j hj
      show ((cuerpoEscaneo h (lo + 1) n (s + h.get lo) true (acc.set lo (s + h.get lo))).2).get j = _
      rw [ih (lo + 1) (by omega) _ _ j hj]
      by_cases h1 : (lo + 1) ≤ j ∧ j < (lo + 1) + n
      · rw [if_pos h1, if_pos (by omega),
          show j - lo + 1 = (j - (lo + 1) + 1) + 1 from by omega,
          show sumaCeldas h lo ((j - (lo + 1) + 1) + 1) =
            h.get lo + sumaCeldas h (lo + 1) (j - (lo + 1) + 1) from rfl]
        ring
      · rw [if_neg h1, ArregloRangos.get_set acc lo j _ (by omega) hj]
        by_cases h2 : j = lo
        · subst h2
          rw [if_pos rfl, if_pos (by omega),
            show j - j + 1 = 1 from by omega,
            show sumaCeldas h j 1 = h.get j + sumaCeldas h (j + 1) 0 from rfl,
            show sumaCeldas h (j + 1) 0 = 0 from rfl]
          ring
        · rw [if_neg h2, if_neg (by omega)]

/-- Extending a prefix sum by the cells of the next block. -/
theorem sumaPrefijo_extiende (h : ArregloRangos) (lo mid : Nat) (hlm : lo ≤ mid) :
    sumaPrefijo h lo + sumaCeldas h lo (mid - lo) = sumaPrefijo h mid := by
  obtain ⟨d, rfl⟩ : ∃ d, mid = lo + d := ⟨mid - lo, by omega⟩
  rw [Nat.add_sub_cancel_left]
  unfold sumaPrefijo
  rw [sumaCeldas_division h lo d 0, Nat.zero_add]

/-- A chunk partition always stops at 4. -/
theorem TrozosDesde.tope {p : Nat} {l : List (Nat × Nat)} (h : TrozosDesde p l) : p ≤ 4 := by
  induction h with
  | nil => exact le_refl 4
  | cons h1 h2 ih => omega

/-- The in-order final passes over any chunk partition of [p, 4), seeded
with the prefix sum up to p, leave slot j ≥ p holding the inclusive
prefix sum up to j and every slot below p untouched. -/
theorem escaneoParalelo_eval (h : ArregloRangos) :
    ∀ {trozos : List (Nat × Nat)} {p : Nat}, TrozosDesde p trozos →
      ∀ (acc : ArregloRangos) (j : Nat), j < 4 →
        ((escaneoParalelo h trozos (sumaPrefijo h p) acc).2).get j =
          if p ≤ j then sumaPrefijo h (j + 1) else acc.get j := by
  intro trozos p ht
  induction ht with
  | nil =>
      intro acc j hj
      show acc.get j = _
      rw [if_neg (by omega)]
  | @cons lo mid resto hlm hresto ih =>
      intro acc j hj
      have hmid : mid ≤ 4 := hresto.tope
      show ((escaneoParalelo h resto
          (cuerpoEscaneo h lo (mid - lo) (sumaPrefijo h lo) true acc).1
          (cuerpoEscaneo h lo (mid - lo) (sumaPrefijo h lo) true acc).2).2).get j = _
      have hsem : (cuerpoEscaneo h lo (mid - lo) (sumaPrefijo h lo) true acc).1 =
          sumaPrefijo h mid := by
        rw [cuerpoEscaneo_retorno]
        exact sumaPrefijo_extiende h lo mid hlm
      rw [hsem, ih _ j hj]
      by_cases h1 : mid ≤ j
      · rw [if_pos h1, if_pos (by omega)]
      · rw [if_neg h1,
          cuerpoEscaneo_final h (mid - lo) lo (by omega) _ acc j hj]
        by_cases h2 : lo ≤ j
        · rw [if_pos (by omega), if_pos h2,
            show j - lo + 1 = (j + 1) - lo from by omega]
          exact sumaPrefijo_extiende h lo (j + 1) (by omega)
        · rw [if_neg (by omega), if_neg h2]

/-- The three cumulative cells of the sequential scan, written out. -/
theorem escanearSecuencial_componentes (h : ArregloRangos) :
    escanearSecuencial h =
      ⟨h.c0, h.c0 + h.c1, h.c0 + h.c1 + h.c2, h.c0 + h.c1 + h.c2 + h.c3⟩ := by
  cases h with
  | mk x0 x1 x2 x3 =>
      show ArregloRangos.mk (0 + x0) (0 + x0 + x1) (0 + x0 + x1 + x2) (0 + x0 + x1 + x2 + x3) = _
      norm_num

/-- Each cell of the sequential scan is the inclusive prefix sum. -/
theorem escanearSecuencial_get (h : ArregloRangos) (j : Nat) (hj : j < 4) :
    (escanearSecuencial h).get j = sumaPrefijo h (j + 1) := by
  rw [escanearSecuencial_componentes]
  interval_cases j <;>
    simp [ArregloRangos.get, sumaPrefijo, sumaCeldas] <;> ring

/-- The parallel map followed by the parallel reduce computes the
sequential histogram, for every pair of covering split trees. -/
theorem histogramas_coinciden (datos : List Int) (W : Int) {tM tR : ArbolRango}
    (hM : Cubre tM 0 datos.length) (hR : Cubre tR 0 datos.length) :
    reduccionParalela (mapeoParalelo datos W tM (fun _ => ArregloRangos.cero)) tR =
      reducirSecuencial (mapearSecuencial datos W) := by
  rw [reduccionParalela_eval _ hR, Nat.sub_zero]
  apply sumaRango_lista
  intro k hk
  rw [Nat.zero_add, mapeoParalelo_eval datos W hM, if_pos (by omega)]
  rfl

/-- Master equivalence: for every splitting of the map range, every
splitting of the reduce range and every chunk partition of the scan
range, the parallel pipeline computes exactly the sequential result. -/
theorem backends_coinciden (datos : List Int) (W : Int) {tM tR : ArbolRango}
    {trozos : List (Nat × Nat)} (hM : Cubre tM 0 datos.length)
    (hR : Cubre tR 0 datos.length) (hT : TrozosDesde 0 trozos) :
    ejecutarParalelo datos W tM tR trozos = ejecutarSecuencial datos W := by
  show (escaneoParalelo
      (reduccionParalela (mapeoParalelo datos W tM (fun _ => ArregloRangos.cero)) tR)
      trozos 0 ArregloRangos.cero).2 =
    escanearSecuencial (reducirSecuencial (mapearSecuencial datos W))
  rw [histogramas_coinciden datos W hM hR]
  apply ArregloRangos.ext_get
  intro j hj
  rw [escanearSecuencial_get _ j hj]
  have h0 : (0 : Int) = sumaPrefijo (reducirSecuencial (mapearSecuencial datos W)) 0 := rfl
  rw [h0, escaneoParalelo_eval _ hT _ j hj, if_pos (Nat.zero_le j)]

/-- Claim C1: for every input sequence of integers in [0, V] under the
reference configuration (B = 4, V ≥ 1, W = ⌈V/B⌉), the sequential and the
parallel backend produce exactly the same cumulative histogram, for every
way the scheduler partitions the three index ranges. -/
theorem paralelo_igual_secuencial (V W : Int) (datos : List Int)
    (hV : 1 ≤ V) (hW : W = ⌈(V : ℚ) / 4⌉)
    (hdatos : ∀ x ∈ datos, 0 ≤ x ∧ x ≤ V)
    {tM tR : ArbolRango} {trozos : List (Nat × Nat)}
    (hM : Cubre tM 0 datos.length) (hR : Cubre tR 0 datos.length)
    (hT : TrozosDesde 0 trozos) :
    ejecutarParalelo datos W tM tR trozos = ejecutarSecuencial datos W :=
  backends_coinciden datos W hM hR hT

/-- Witness for C1: the boundary input of scenario S4, V = 120, W = 30,
with a split map tree, a split reduce tree and a three-chunk scan. -/
theorem paralelo_igual_secuencial_testigo :
    ejecutarParalelo [1, 30, 31, 60, 61, 90, 91, 120] 30
        (ArbolRango.division true (ArbolRango.hoja 0 5) (ArbolRango.hoja 5 8))
        (ArbolRango.division false (ArbolRango.hoja 0 2)
          (ArbolRango.division true (ArbolRango.hoja 2 6) (ArbolRango.hoja 6 8)))
        [(0, 1), (1, 3), (3, 4)] =
      ejecutarSecuencial [1, 30, 31, 60, 61, 90, 91, 120] 30 :=
  paralelo_igual_secuencial 120 30 _ (by norm_num) (by norm_num) (by decide)
    (Cubre.division (Cubre.hoja (by norm_num)) (Cubre.hoja (by norm_num)))
    (Cubre.division (Cubre.hoja (by norm_num))
      (Cubre.division (Cubre.hoja (by norm_num)) (Cubre.hoja (by norm_num))))
    (TrozosDesde.cons (by norm_num)
      (TrozosDesde.cons (by norm_num)
        (TrozosDesde.cons (by norm_num) TrozosDesde.nil)))

/-- The total of an element-wise sum. -/
theorem ArregloRangos.suma_add (a b : ArregloRangos) :
    (a.add b).suma = a.suma + b.suma := by
  cases a; cases b
  simp [ArregloRangos.add, ArregloRangos.suma]
  ring

/-- The reference width W = ⌈V/4⌉ is at least 1 when V ≥ 1. -/
theorem ancho_positivo (V W : Int) (hV : 1 ≤ V) (hW : W = ⌈(V : ℚ) / 4⌉) : 1 ≤ W := by
  rw [hW]
  have hV' : (0 : ℚ) < (V : ℚ) := by exact_mod_cast lt_of_lt_of_le zero_lt_one hV
  exact Int.ceil_pos.mpr (div_pos hV' (by norm_num))

/-- A one-hot array of a valid bucket index sums to 1. -/
theorem vectorUnitario_suma (i : Int) (h0 : 0 ≤ i) (h3 : i < CANTIDAD_RANGOS) :
    (vectorUnitario i).suma = 1 := by
  unfold CANTIDAD_RANGOS at h3
  have : i = 0 ∨ i = 1 ∨ i = 2 ∨ i = 3 := by omega
  rcases this with rfl | rfl | rfl | rfl <;> decide

/-- The sequential histogram of nonnegative inputs sums to the input length. -/
theorem reducirSecuencial_suma (W : Int) (hW : 1 ≤ W) :
    ∀ (l : List Int), (∀ x ∈ l, 0 ≤ x) →
      (reducirSecuencial (mapearSecuencial l W)).suma = l.length := by
  intro l
  induction l with
  | nil => intro _; rfl
  | cons x t ih =>
      intro h
      show ((mapearSecuencial (x :: t) W).foldl ArregloRangos.add ArregloRangos.cero).suma = _
      rw [show mapearSecuencial (x :: t) W =
          vectorUnitario (calcularIndiceRango x W) :: mapearSecuencial t W from rfl,
        List.foldl_cons, foldl_add_desde, ArregloRangos.cero_add, ArregloRangos.suma_add]
      have hx : (vectorUnitario (calcularIndiceRango x W)).suma = 1 := by
        have hv := indice_valido x W hW (by have := h x (by simp); omega)
        exact vectorUnitario_suma _ hv.1 hv.2
      rw [hx]
      show 1 + (reducirSecuencial (mapearSecuencial t W)).suma = ((x :: t).length : Int)
      rw [ih (fun y hy => h y (by simp [hy]))]
      rw [List.length_cons]
      push_cast
      ring

/-- The full prefix sum is the total of the histogram. -/
theorem sumaPrefijo_cuatro (h : ArregloRangos) : sumaPrefijo h 4 = h.suma := by
  show h.get 0 + (h.get 1 + (h.get 2 + (h.get 3 + 0))) = h.suma
  cases h
  simp [ArregloRangos.get, ArregloRangos.suma]
  ring

/-- Claim C3: for inputs in [0, V] under the reference configuration, the
histogram of the reduce stage sums to N and the last entry of the
cumulative histogram is N, in both backends and for every scheduling. -/
theorem suma_preservada (V W : Int) (datos : List Int) (hV : 1 ≤ V)
    (hW : W = ⌈(V : ℚ) / 4⌉) (hdatos : ∀ x ∈ datos, 0 ≤ x ∧ x ≤ V) :
    (reducirSecuencial (mapearSecuencial datos W)).suma = datos.length ∧
      (ejecutarSecuencial datos W).get 3 = datos.length ∧
      (∀ {tM tR : ArbolRango} {trozos : List (Nat × Nat)},
        Cubre tM 0 datos.length → Cubre tR 0 datos.length → TrozosDesde 0 trozos →
        (reduccionParalela (mapeoParalelo datos W tM (fun _ => ArregloRangos.cero)) tR).suma
            = datos.length ∧
          (ejecutarParalelo datos W tM tR trozos).get 3 = datos.length) := by
  have hW1 := ancho_positivo V W hV hW
  have hsum := reducirSecuencial_suma W hW1 datos (fun x hx => (hdatos x hx).1)
  have hlast : (ejecutarSecuencial datos W).get 3 = datos.length := by
    show (escanearSecuencial (reducirSecuencial (mapearSecuencial datos W))).get 3 = _
    rw [escanearSecuencial_get _ 3 (by norm_num), sumaPrefijo_cuatro, hsum]
  refine ⟨hsum, hlast, ?_⟩
  intro tM tR trozos hM hR hT
  constructor
  · rw [histogramas_coinciden datos W hM hR, hsum]
  · rw [backends_coinciden datos W hM hR hT, hlast]

/-- Witness for C3 on scenario S5. -/
theorem suma_preservada_testigo :
    (reducirSecuencial (mapearSecuencial [5, 5, 5, 5, 5] 30)).suma = 5 ∧
      (ejecutarSecuencial [5, 5, 5, 5, 5] 30).get 3 = 5 := by
  have h := suma_preservada 120 30 [5, 5, 5, 5, 5] (by norm_num) (by norm_num) (by decide)
  exact ⟨h.1, h.2.1⟩

/-- The four cells are everywhere nonnegative. -/
def ArregloRangos.noNeg (a : ArregloRangos) : Prop :=
  0 ≤ a.c0 ∧ 0 ≤ a.c1 ∧ 0 ≤ a.c2 ∧ 0 ≤ a.c3

/-- One-hot arrays are nonnegative (also for an out-of-range index). -/
theorem vectorUnitario_noNeg (i : Int) : (vectorUnitario i).noNeg := by
  unfold vectorUnitario ArregloRangos.noNeg
  split_ifs <;> norm_num [ArregloRangos.cero]

/-- Element-wise addition preserves nonnegativity. -/
theorem add_noNeg {a b : ArregloRangos} (ha : a.noNeg) (hb : b.noNeg) :
    (a.add b).noNeg := by
  obtain ⟨a0, a1, a2, a3⟩ := ha
  obtain ⟨b0, b1, b2, b3⟩ := hb
  exact ⟨by simpa [ArregloRangos.add] using add_nonneg a0 b0,
    by simpa [ArregloRangos.add] using add_nonneg a1 b1,
    by simpa [ArregloRangos.add] using add_nonneg a2 b2,
    by simpa [ArregloRangos.add] using add_nonneg a3 b3⟩

/-- Every cell read of a nonnegative array is nonnegative. -/
theorem noNeg_get {a : ArregloRangos} (h : a.noNeg) (j : Nat) : 0 ≤ a.get j := by
  obtain ⟨h0, h1, h2, h3⟩ := h
  unfold ArregloRangos.get
  split
  · exact h0
  · exact h1
  · exact h2
  · exact h3
  · exact le_refl 0

/-- The sequential histogram is nonnegative. -/
theorem reducirSecuencial_noNeg (W : Int) (datos : List Int) :
    (reducirSecuencial (mapearSecuencial datos W)).noNeg := by
  induction datos with
  | nil => exact ⟨le_refl 0, le_refl 0, le_refl 0, le_refl 0⟩
  | cons x t ih =>
      show ((mapearSecuencial (x :: t) W).foldl ArregloRangos.add ArregloRangos.cero).noNeg
      rw [show mapearSecuencial (x :: t) W =
          vectorUnitario (calcularIndiceRango x W) :: mapearSecuencial t W from rfl,
        List.foldl_cons, foldl_add_desde, ArregloRangos.cero_add]
      exact add_noNeg (vectorUnitario_noNeg _) ih

/-- Claim C6: the cumulative histogram is monotonically non-decreasing,
in both backends and for every scheduling. -/
theorem acumulado_monotono (datos : List Int) (W : Int) (j : Nat)
    (hj0 : 0 < j) (hj : j < 4) :
    (ejecutarSecuencial datos W).get (j - 1) ≤ (ejecutarSecuencial datos W).get j ∧
      (∀ {tM tR : ArbolRango} {trozos : List (Nat × Nat)},
        Cubre tM 0 datos.length → Cubre tR 0 datos.length → TrozosDesde 0 trozos →
        (ejecutarParalelo datos W tM tR trozos).get (j - 1) ≤
          (ejecutarParalelo datos W tM tR trozos).get j) := by
  have hsec :
      (ejecutarSecuencial datos W).get (j - 1) ≤ (ejecutarSecuencial datos W).get j := by
    show (escanearSecuencial (reducirSecuencial (mapearSecuencial datos W))).get (j - 1) ≤
      (escanearSecuencial (reducirSecuencial (mapearSecuencial datos W))).get j
    rw [escanearSecuencial_get _ (j - 1) (by omega), escanearSecuencial_get _ j hj,
      show j - 1 + 1 = j from by omega]
    have hext := sumaPrefijo_extiende (reducirSecuencial (mapearSecuencial datos W))
      j (j + 1) (by omega)
    have hpos : 0 ≤ sumaCeldas (reducirSecuencial (mapearSecuencial datos W)) j ((j + 1) - j) := by
      rw [show (j + 1) - j = 1 from by omega,
        show sumaCeldas (reducirSecuencial (mapearSecuencial datos W)) j 1 =
          (reducirSecuencial (mapearSecuencial datos W)).get j + 0 from rfl]
      have := noNeg_get (reducirSecuencial_noNeg W datos) j
      omega
    omega
  refine ⟨hsec, ?_⟩
  intro tM tR trozos hM hR hT
  rw [backends_coinciden datos W hM hR hT]
  exact hsec

/-- Witness for C6 on scenario S4 at j = 2. -/
theorem acumulado_monotono_testigo :
    (ejecutarSecuencial [1, 30, 31, 60, 61, 90, 91, 120] 30).get 1 ≤
      (ejecutarSecuencial [1, 30, 31, 60, 61, 90, 91, 120] 30).get 2 :=
  (acumulado_monotono [1, 30, 31, 60, 61, 90, 91, 120] 30 2 (by norm_num) (by norm_num)).1

instance : RightCommutative ArregloRangos.add :=
  ⟨fun b a1 a2 => by
    rw [ArregloRangos.add_asoc, ArregloRangos.add_asoc, ArregloRangos.add_conm a1 a2]⟩

/-- Permuting the inputs permutes the mapped one-hot arrays, and the
element-wise fold is invariant under that. -/
theorem reducir_perm (W : Int) {l1 l2 : List Int} (hp : l1.Perm l2) :
    reducirSecuencial (mapearSecuencial l1 W) = reducirSecuencial (mapearSecuencial l2 W) :=
  List.Perm.foldl_eq
    (hp.map (fun d => vectorUnitario (calcularIndiceRango d W))) ArregloRangos.cero

/-- Claim C8: the pipeline is permutation-invariant — permuting the input
leaves the cumulative histogram unchanged, under either backend and any
scheduling. -/
theorem invariante_permutacion (W : Int) (datos1 datos2 : List Int)
    (hp : datos1.Perm datos2) :
    ejecutarSecuencial datos1 W = ejecutarSecuencial datos2 W ∧
      (∀ {tM1 tR1 : ArbolRango} {trozos1 : List (Nat × Nat)}
        {tM2 tR2 : ArbolRango} {trozos2 : List (Nat × Nat)},
        Cubre tM1 0 datos1.length → Cubre tR1 0 datos1.length → TrozosDesde 0 trozos1 →
        Cubre tM2 0 datos2.length → Cubre tR2 0 datos2.length → TrozosDesde 0 trozos2 →
        ejecutarParalelo datos1 W tM1 tR1 trozos1 =
          ejecutarParalelo datos2 W tM2 tR2 trozos2) := by
  have hsec : ejecutarSecuencial datos1 W = ejecutarSecuencial datos2 W := by
    show escanearSecuencial (reducirSecuencial (mapearSecuencial datos1 W)) =
      escanearSecuencial (reducirSecuencial (mapearSecuencial datos2 W))
    rw [reducir_perm W hp]
  refine ⟨hsec, ?_⟩
  intro tM1 tR1 trozos1 tM2 tR2 trozos2 hM1 hR1 hT1 hM2 hR2 hT2
  rw [backends_coinciden datos1 W hM1 hR1 hT1, backends_coinciden datos2 W hM2 hR2 hT2]
  exact hsec

/-- Witness for C8: a reversal of the S4 input. -/
theorem invariante_permutacion_testigo :
    ejecutarSecuencial [1, 30, 31, 60, 61, 90, 91, 120] 30 =
      ejecutarSecuencial [120, 91, 90, 61, 60, 31, 30, 1] 30 :=
  (invariante_permutacion 30 [1, 30, 31, 60, 61, 90, 91, 120]
    [120, 91, 90, 61, 60, 31, 30, 1] (by decide)).1

/-- Claim C10: the parallel scan body is a faithful two-pass body. On any
subrange [lo, hi) of [0, 4) and seed s it returns s plus the cell sum of
the subrange whatever the `esFinal` flag; with `esFinal = false` it writes
nothing; with `esFinal = true` it writes slot i of its subrange the value
s plus the cell sum over [lo, i]; and the in-order final passes over any
chunk partition, seeded by the running returns, reproduce the serial
inclusive prefix scan. -/
theorem escaneo_dos_pasadas (h : ArregloRangos) :
    (∀ (lo hi : Nat) (s : Int) (esFinal : Bool) (acc : ArregloRangos),
        (cuerpoEscaneo h lo (hi - lo) s esFinal acc).1 = s + sumaCeldas h lo (hi - lo)) ∧
      (∀ (lo hi : Nat) (s : Int) (acc : ArregloRangos),
        (cuerpoEscaneo h lo (hi - lo) s false acc).2 = acc) ∧
      (∀ (lo hi : Nat), hi ≤ 4 → ∀ (s : Int) (acc : ArregloRangos) (i : Nat),
        lo ≤ i → i < hi →
        ((cuerpoEscaneo h lo (hi - lo) s true acc).2).get i =
          s + sumaCeldas h lo (i - lo + 1)) ∧
      (∀ (trozos : List (Nat × Nat)), TrozosDesde 0 trozos →
        (escaneoParalelo h trozos 0 ArregloRangos.cero).2 = escanearSecuencial h) := by
  refine ⟨?_, ?_, ?_, ?_⟩
  · intro lo hi s esFinal acc
    exact cuerpoEscaneo_retorno h (hi - lo) lo s esFinal acc
  · intro lo hi s acc
    exact cuerpoEscaneo_no_final h (hi - lo) lo s acc
  · intro lo hi hhi s acc i h1 h2
    rw [cuerpoEscaneo_final h (hi - lo) lo (by omega) s acc i (by omega),
      if_pos (by omega)]
  · intro trozos ht
    apply ArregloRangos.ext_get
    intro j hj
    rw [escanearSecuencial_get _ j hj]
    have h0 : (0 : Int) = sumaPrefijo h 0 := rfl
    rw [h0, escaneoParalelo_eval h ht _ j hj, if_pos (Nat.zero_le j)]

/-- Witness for C10: a final pass over [1, 3) of a concrete histogram with
seed 5 writes slot 2 the seed plus the sum of cells 1 and 2, and a
two-chunk partition reproduces the serial scan. -/
theorem escaneo_dos_pasadas_testigo :
    ((cuerpoEscaneo ⟨1, 2, 3, 4⟩ 1 (3 - 1) 5 true ArregloRangos.cero).2).get 2 =
        5 + sumaCeldas ⟨1, 2, 3, 4⟩ 1 (2 - 1 + 1) ∧
      (escaneoParalelo ⟨1, 2, 3, 4⟩ [(0, 2), (2, 4)] 0 ArregloRangos.cero).2 =
        escanearSecuencial ⟨1, 2, 3, 4⟩ :=
  ⟨(escaneo_dos_pasadas ⟨1, 2, 3, 4⟩).2.2.1 1 3 (by norm_num) 5 ArregloRangos.cero 2
      (by norm_num) (by norm_num),
    (escaneo_dos_pasadas ⟨1, 2, 3, 4⟩).2.2.2 [(0, 2), (2, 4)]
      (TrozosDesde.cons (by norm_num) (TrozosDesde.cons (by norm_num) TrozosDesde.nil))⟩

/-- The locals of `ejecutarParalelo` together with the vector `datos`,
which the function receives by non-const reference (line 130): the frame
claim is that no phase writes `datos`, and each phase writes only the
structure it produces. -/
structure EstadoParalelo where
  datos : List Int
  valoresMapeados : Nat → ArregloRangos
  histograma : ArregloRangos
  histogramaAcumulado : ArregloRangos

/-- Phase 1 of the parallel backend as a transformer of the shared state:
only `valoresMapeados` is written. -/
def fase1Mapeo (tamanoRango : Int) (t : ArbolRango) (st : EstadoParalelo) : EstadoParalelo :=
  ⟨st.datos, mapeoParalelo st.datos tamanoRango t st.valoresMapeados,
    st.histograma, st.histogramaAcumulado⟩

/-- Phase 2 of the parallel backend: only `histograma` is written. -/
def fase2Reduccion (t : ArbolRango) (st : EstadoParalelo) : EstadoParalelo :=
  ⟨st.datos, st.valoresMapeados, reduccionParalela st.valoresMapeados t,
    st.histogramaAcumulado⟩

/-- Phase 3 of the parallel backend: only `histogramaAcumulado` is written. -/
def fase3Escaneo (trozos : List (Nat × Nat)) (st : EstadoParalelo) : EstadoParalelo :=
  ⟨st.datos, st.valoresMapeados, st.histograma,
    (escaneoParalelo st.histograma trozos 0 st.histogramaAcumulado).2⟩

/-- The whole parallel backend as a state transformer. -/
def ejecutarParaleloEstado (tamanoRango : Int) (tM tR : ArbolRango)
    (trozos : List (Nat × Nat)) (st : EstadoParalelo) : EstadoParalelo :=
  fase3Escaneo trozos (fase2Reduccion tR (fase1Mapeo tamanoRango tM st))

/-- The state transformer computes exactly `ejecutarParalelo` when started
on the value-initialised locals of lines 135 and 198. -/
theorem ejecutarParaleloEstado_coherente (datos : List Int) (W : Int)
    (tM tR : ArbolRango) (trozos : List (Nat × Nat)) :
    (ejecutarParaleloEstado W tM tR trozos
        ⟨datos, fun _ => ArregloRangos.cero, ArregloRangos.cero, ArregloRangos.cero⟩).histogramaAcumulado =
      ejecutarParalelo datos W tM tR trozos := rfl

/-- The locals of `ejecutarSecuencial` together with the vector `datos`
(received by const reference, line 65). -/
structure EstadoSecuencial where
  datos : List Int
  valoresMapeados : List ArregloRangos
  histograma : ArregloRangos
  histogramaAcumulado : ArregloRangos

/-- Step 1 of the sequential backend: only `valoresMapeados` is written. -/
def fase1MapeoSec (tamanoRango : Int) (st : EstadoSecuencial) : EstadoSecuencial :=
  ⟨st.datos, mapearSecuencial st.datos tamanoRango, st.histograma, st.histogramaAcumulado⟩

/-- Step 2 of the sequential backend: only `histograma` is written. -/
def fase2ReduccionSec (st : EstadoSecuencial) : EstadoSecuencial :=
  ⟨st.datos, st.valoresMapeados, reducirSecuencial st.valoresMapeados,
    st.histogramaAcumulado⟩

/-- Step 3 of the sequential backend: only `histogramaAcumulado` is written. -/
def fase3EscaneoSec (st : EstadoSecuencial) : EstadoSecuencial :=
  ⟨st.datos, st.valoresMapeados, st.histograma, escanearSecuencial st.histograma⟩

/-- The whole sequential backend as a state transformer. -/
def ejecutarSecuencialEstado (tamanoRango : Int) (st : EstadoSecuencial) : EstadoSecuencial :=
  fase3EscaneoSec (fase2ReduccionSec (fase1MapeoSec tamanoRango st))

/-- Claim C9: a run has no side effects on the input — after either
backend completes, `datos` is exactly what it was before the call (the
parallel backend receives it by mutable reference), and no stage writes
the structure it consumes: the reduce leaves the one-hot array untouched
and the scan leaves both the one-hot array and the histogram untouched. -/
theorem sin_efectos_en_entrada (W : Int) (tM tR : ArbolRango)
    (trozos : List (Nat × Nat)) (stP : EstadoParalelo) (stS : EstadoSecuencial) :
    (ejecutarParaleloEstado W tM tR trozos stP).datos = stP.datos ∧
      (ejecutarSecuencialEstado W stS).datos = stS.datos ∧
      (fase1Mapeo W tM stP).datos = stP.datos ∧
      (fase2Reduccion tR stP).datos = stP.datos ∧
      (fase2Reduccion tR stP).valoresMapeados = stP.valoresMapeados ∧
      (fase3Escaneo trozos stP).datos = stP.datos ∧
      (fase3Escaneo trozos stP).valoresMapeados = stP.valoresMapeados ∧
      (fase3Escaneo trozos stP).histograma = stP.histograma ∧
      (fase1MapeoSec W stS).datos = stS.datos ∧
      (fase2ReduccionSec stS).datos = stS.datos ∧
      (fase2ReduccionSec stS).valoresMapeados = stS.valoresMapeados ∧
      (fase3EscaneoSec stS).datos = stS.datos ∧
      (fase3EscaneoSec stS).valoresMapeados = stS.valoresMapeados ∧
      (fase3EscaneoSec stS).histograma = stS.histograma :=
  ⟨rfl, rfl, rfl, rfl, rfl, rfl, rfl, rfl, rfl, rfl, rfl, rfl, rfl, rfl⟩

/-- Error kind of §7 of the design document. -/
inductive ErrorNucleo where
  | invalidConfiguration
deriving DecidableEq, Repr

/-- Modelled from the spec: the driver operation `run(input, config,
backend) → cumulative` of §4.5 with the InvalidConfiguration check of §7.
main.cpp has no such driver — its `main` hardcodes the always-valid
configuration B = 4, V = 120 and contains no validation code — so the
check is taken from the spec's words: B ≤ 0 or V ≤ 0 is detected before
any stage executes, the error is surfaced, and the caller's output
parameter `salida` is returned untouched; otherwise the selected backend
runs and its cumulative histogram replaces `salida`. -/
def runPipeline (datos : List Int) (B V tamanoRango : Int) (backendParalelo : Bool)
    (tMapa tRed : ArbolRango) (trozos : List (Nat × Nat)) (salida : ArregloRangos) :
    ArregloRangos × Option ErrorNucleo :=
  if B ≤ 0 ∨ V ≤ 0 then (salida, some ErrorNucleo.invalidConfiguration)
  else if backendParalelo then
    (ejecutarParalelo datos tamanoRango tMapa tRed trozos, none)
  else (ejecutarSecuencial datos tamanoRango, none)

/-- Claim C7: with an invalid configuration (B ≤ 0 or V ≤ 0) the run fails
before any stage executes, the error is surfaced to the caller, and the
output parameter is left untouched — no partial result is produced. -/
theorem configuracion_invalida_falla (datos : List Int) (B V W : Int)
    (backend : Bool) (tM tR : ArbolRango) (trozos : List (Nat × Nat))
    (salida : ArregloRangos) (hinv : B ≤ 0 ∨ V ≤ 0) :
    runPipeline datos B V W backend tM tR trozos salida =
      (salida, some ErrorNucleo.invalidConfiguration) := by
  unfold runPipeline
  rw [if_pos hinv]

/-- Witness for C7: B = 0 fails and hands back the caller's array. -/
theorem configuracion_invalida_falla_testigo :
    runPipeline [3] 0 120 30 true (ArbolRango.hoja 0 1) (ArbolRango.hoja 0 1)
        [(0, 4)] ⟨7, 7, 7, 7⟩ = (⟨7, 7, 7, 7⟩, some ErrorNucleo.invalidConfiguration) :=
  configuracion_invalida_falla [3] 0 120 30 true _ _ _ _ (Or.inl (by norm_num))

end Practica
